import Mathlib

/-!
Shallow embedding of the PubMed coauthor affiliation core (`util.py`):
the text-normalisation pipeline (`remove_parentheses_with_initials`,
`extract_emails`, `clean_affiliations`, `split_camel_case`) and the
deduplicator (`get_latest_affiliations`), together with proofs of the
behavioural claims about them.

Strings are modelled as `List Char`; Python `None` as `Option.none`.
Each `re.sub` call in the source is modelled by an executable function that
performs the same single left-to-right non-overlapping substitution pass.
-/

namespace Pubmed

/-- The ASCII whitespace characters matched by the regex class `\s`
(the inputs handled by the source are ASCII). -/
def pyIsSpace (c : Char) : Bool :=
  c = ' ' || c = '\t' || c = '\n' || c = '\r' || c = '\x0b' || c = '\x0c'

def isAsciiUpper (c : Char) : Bool := 'A' ≤ c && c ≤ 'Z'

def isAsciiLower (c : Char) : Bool := 'a' ≤ c && c ≤ 'z'

def isAsciiDigit (c : Char) : Bool := '0' ≤ c && c ≤ '9'

def isAsciiLetter (c : Char) : Bool := isAsciiUpper c || isAsciiLower c

/-! ### clean_affiliations (source lines 102-145) -/

/-- `affiliation.replace('\n', '; ')`. -/
def replaceNewlines : List Char → List Char
  | [] => []
  | c :: cs => if c = '\n' then ';' :: ' ' :: replaceNewlines cs else c :: replaceNewlines cs

/-- `re.sub(r'\s+X', 'X')` for a literal non-whitespace character `X`
(used with `X = ','` and `X = '.'`): every maximal whitespace run that
immediately precedes `X` is deleted.  Built right-to-left: a whitespace
character is dropped exactly when the already-processed remainder starts
with `X`. -/
def stripWsBefore (t : Char) : List Char → List Char
  | [] => []
  | c :: cs =>
    let r := stripWsBefore t cs
    if pyIsSpace c ∧ r.head? = some t then r else c :: r

/-- `re.sub(r'\s+', ' ')`: each maximal whitespace run becomes a single
space. -/
def collapseWs : List Char → List Char
  | [] => []
  | c :: cs =>
    let r := collapseWs cs
    if pyIsSpace c then (if r.head?.any pyIsSpace then r else ' ' :: r) else c :: r

/-- Python `str.strip()`: drop trailing whitespace, then leading whitespace. -/
def stripList (l : List Char) : List Char :=
  ((l.reverse.dropWhile pyIsSpace).reverse).dropWhile pyIsSpace

/-- The string pipeline inside `clean_affiliations`. -/
def cleanAffText (s : List Char) : List Char :=
  stripList (collapseWs (stripWsBefore ',' (replaceNewlines s)))

/-- A dynamically typed input value, as the Python function receives it:
`None`, a string, or some other (non-`None`, non-string) value. -/
inductive PyVal where
  | none
  | str (s : List Char)
  | nonStr
deriving DecidableEq

/-- `clean_affiliations` (source lines 102-145): returns `None` on `None`,
raises on a non-`None` non-string input, and otherwise runs the pipeline. -/
def clean_affiliations : PyVal → Except String (Option (List Char))
  | PyVal.none => .ok Option.none
  | PyVal.str s => .ok (some (cleanAffText s))
  | PyVal.nonStr => .error "Affiliation must be a string"

/-! ### split_camel_case (source lines 148-213) -/

/-- One pass of `re.sub(r'([a-zA-Z])(\d{5})', r'\1 \2')`: a space is inserted
between a letter and an immediately following run of five digits; scanning
resumes after each match. -/
def subLetterFiveDigits : List Char → List Char
  | a :: b :: c :: d :: e :: f :: rest =>
    if isAsciiLetter a ∧ isAsciiDigit b ∧ isAsciiDigit c ∧ isAsciiDigit d ∧
        isAsciiDigit e ∧ isAsciiDigit f then
      a :: ' ' :: b :: c :: d :: e :: f :: subLetterFiveDigits rest
    else a :: subLetterFiveDigits (b :: c :: d :: e :: f :: rest)
  | l => l

/-- One pass of `re.sub(r"([a-z])([a-z])([A-Z])([a-z])", r"\1\2 \3\4")`. -/
def subLLUl : List Char → List Char
  | a :: b :: c :: d :: rest =>
    if isAsciiLower a ∧ isAsciiLower b ∧ isAsciiUpper c ∧ isAsciiLower d then
      a :: b :: ' ' :: c :: d :: subLLUl rest
    else a :: subLLUl (b :: c :: d :: rest)
  | l => l

/-- One pass of `re.sub(r"([a-z])([a-z])([A-Z])([A-Z])", r"\1\2 \3\4")`. -/
def subLLUU : List Char → List Char
  | a :: b :: c :: d :: rest =>
    if isAsciiLower a ∧ isAsciiLower b ∧ isAsciiUpper c ∧ isAsciiUpper d then
      a :: b :: ' ' :: c :: d :: subLLUU rest
    else a :: subLLUU (b :: c :: d :: rest)
  | l => l

/-- One pass of `re.sub(r"([0-9])([A-Z])([a-z])", r"\1 \2\3")`. -/
def subDUl : List Char → List Char
  | a :: b :: c :: rest =>
    if isAsciiDigit a ∧ isAsciiUpper b ∧ isAsciiLower c then
      a :: ' ' :: b :: c :: subDUl rest
    else a :: subDUl (b :: c :: rest)
  | l => l

/-- The string pipeline inside `split_camel_case`: the four substitution
passes, in source order. -/
def splitCamelText (s : List Char) : List Char :=
  subDUl (subLLUU (subLLUl (subLetterFiveDigits s)))

/-- `split_camel_case` (source lines 148-213). -/
def split_camel_case : Option (List Char) → Option (List Char)
  | Option.none => Option.none
  | some s => some (splitCamelText s)

/-! ### remove_parentheses_with_initials (source lines 10-50) -/

/-- After an opening parenthesis, consume `([A-Z]\\.\\,?\\s?)+\\)` and return
the remainder of the input, or `none` if the body does not match.  The regex
is deterministic here: after each `[A-Z]\\.` token an optional comma and then
an optional single whitespace are consumed greedily (backtracking them can
never help, since a comma or whitespace satisfies neither `[A-Z]` nor `\\)`).
The `fuel` argument only bounds the recursion depth: every recursive call
consumes at least two characters, so any `fuel ≥ length` computes the match
(callers pass the input length). -/
def parenBodyF : Nat → List Char → Option (List Char)
  | fuel+1, a :: '.' :: rest =>
    if isAsciiUpper a then
      match rest with
      | ')' :: r => some r
      | ',' :: rest1 =>
        (match rest1 with
         | ')' :: r => some r
         | w :: rest2 =>
           if pyIsSpace w then
             match rest2 with
             | ')' :: r => some r
             | l3 => parenBodyF fuel l3
           else parenBodyF fuel (w :: rest2)
         | [] => Option.none)
      | w :: rest1 =>
        if pyIsSpace w then
          match rest1 with
          | ')' :: r => some r
          | l3 => parenBodyF fuel l3
        else parenBodyF fuel (w :: rest1)
      | [] => Option.none
    else Option.none
  | _, _ => Option.none

/-- One pass of `re.sub(r"\\(([A-Z]\\.\\,?\\s?)+\\)", '', text)`: at each
opening parenthesis where the body matches, the whole group is deleted and
scanning resumes after it; otherwise the character is kept.  Each fuel unit
consumes at least one character. -/
def removeParenGroupsF : Nat → List Char → List Char
  | _, [] => []
  | fuel+1, '(' :: cs =>
    (match parenBodyF cs.length cs with
     | some rest => removeParenGroupsF fuel rest
     | Option.none => '(' :: removeParenGroupsF fuel cs)
  | fuel+1, c :: cs => c :: removeParenGroupsF fuel cs
  | 0, l => l

def removeParenGroups (l : List Char) : List Char :=
  removeParenGroupsF l.length l

/-- One pass of `re.sub(r'\\.\\s+\\.', '.')`: a dot, a whitespace run and a
dot collapse to a single dot; scanning resumes after the second dot.  Each
fuel unit consumes at least one character. -/
def collapseDotSpaceDotF : Nat → List Char → List Char
  | _, [] => []
  | fuel+1, c :: cs =>
    if c = '.' ∧ (cs.takeWhile pyIsSpace).isEmpty = false ∧
        (cs.dropWhile pyIsSpace).head? = some '.' then
      '.' :: collapseDotSpaceDotF fuel ((cs.dropWhile pyIsSpace).tail)
    else c :: collapseDotSpaceDotF fuel cs
  | 0, l => l

def collapseDotSpaceDot (l : List Char) : List Char :=
  collapseDotSpaceDotF l.length l

/-- `remove_parentheses_with_initials` (source lines 10-50). -/
def remove_parentheses_with_initials : Option (List Char) → Option (List Char)
  | Option.none => Option.none
  | some text =>
    some (stripList (stripWsBefore '.'
      (collapseWs (collapseDotSpaceDot (removeParenGroups text)))))

/-! ### extract_emails (source lines 53-99) -/

/-- Characters of the local part `[a-zA-Z0-9._%+-]`. -/
def localChar (c : Char) : Bool :=
  isAsciiLetter c || isAsciiDigit c || c = '.' || c = '_' || c = '%' || c = '+' || c = '-'

/-- Characters of the domain `[a-zA-Z0-9.-]`. -/
def domainChar (c : Char) : Bool :=
  isAsciiLetter c || isAsciiDigit c || c = '.' || c = '-'

/-- Resolve the backtracking of `[a-zA-Z0-9.-]+\\.[a-zA-Z]{2,}` inside the
maximal domain-character run `D`: the regex engine tries the longest domain
first, i.e. the last index `j ≥ 1` with `D[j] = '.'` followed by at least two
ASCII letters; the TLD then takes the maximal letter run.  Returns the length
of the matched part of `D`. -/
def domainSplit (D : List Char) : Option Nat :=
  ((List.range D.length).reverse.find? (fun j =>
    decide (1 ≤ j) && (D.drop j).head?.any (fun c => c = '.') &&
      decide (2 ≤ ((D.drop (j+1)).takeWhile isAsciiLetter).length))).map
    (fun j => j + 1 + ((D.drop (j+1)).takeWhile isAsciiLetter).length)

/-- Try to match `[a-zA-Z0-9._%+-]+@[a-zA-Z0-9.-]+\\.[a-zA-Z]{2,}` at the
head of `l`; on success return the matched characters and the remainder.  The
local part is forced to be the maximal run of local characters (`@` is not a
local character, so backtracking it is useless). -/
def matchEmail (l : List Char) : Option (List Char × List Char) :=
  let loc := l.takeWhile localChar
  if loc.isEmpty then Option.none
  else
    match l.dropWhile localChar with
    | '@' :: rest2 =>
      let D := rest2.takeWhile domainChar
      match domainSplit D with
      | some m => some (loc ++ '@' :: D.take m, D.drop m ++ rest2.dropWhile domainChar)
      | Option.none => Option.none
    | _ => Option.none

/-- `re.findall` and `re.sub(..., '')` for the email regex in one scan:
returns the text with all matches removed, and the list of matches.  A match
always consumes at least one character, so one fuel unit per character
suffices. -/
def scanEmailsF : Nat → List Char → List Char × List (List Char)
  | _, [] => ([], [])
  | fuel+1, c :: cs =>
    (match matchEmail (c :: cs) with
     | some (em, rest) => ((scanEmailsF fuel rest).1, em :: (scanEmailsF fuel rest).2)
     | Option.none => (c :: (scanEmailsF fuel cs).1, (scanEmailsF fuel cs).2))
  | 0, l => (l, [])

def scanEmails (l : List Char) : List Char × List (List Char) :=
  scanEmailsF l.length l

/-- One pass of `re.sub(r'Electronic address:', '')`: each occurrence of the
literal is removed, scanning left to right. -/
def removeElecAddrF : Nat → List Char → List Char
  | _, [] => []
  | fuel+1, c :: cs =>
    if ("Electronic address:".toList).isPrefixOf (c :: cs) then
      removeElecAddrF fuel ((c :: cs).drop ("Electronic address:".toList).length)
    else c :: removeElecAddrF fuel cs
  | 0, l => l

def removeElecAddr (l : List Char) : List Char :=
  removeElecAddrF l.length l

/-- `';'.join es`. -/
def joinSemis : List (List Char) → List Char
  | [] => []
  | [e] => e
  | e :: es => e ++ ';' :: joinSemis es

/-- `extract_emails` (source lines 53-99): email matches are removed from the
text, the literal `Electronic address:` is removed, `.\\s+.` runs and
whitespace are re-collapsed and the text stripped; the matched emails are
joined with `';'`, or `None` when there are none. -/
def extract_emails : Option (List Char) → Option (List Char) × Option (List Char)
  | Option.none => (Option.none, Option.none)
  | some text =>
    let p := scanEmails text
    (some (stripList (collapseWs (collapseDotSpaceDot (removeElecAddr p.1)))),
     match p.2 with
     | [] => Option.none
     | e :: es => some (joinSemis (e :: es)))

/-! ### Author and get_latest_affiliations (source lines 216-293) -/

/-- The frozen dataclass `Author` (source lines 216-236).  Strings are
`List Char` and dates naturals (Python `date` values are totally ordered). -/
structure Author where
  last_name : Option (List Char)
  first_name : Option (List Char)
  initials : Option (List Char)
  affiliation : Option (List Char)
  affiliation_date : Nat
  publication_title : Option (List Char)
deriving DecidableEq

/-- The `name` property (source lines 225-236):
`f"{last_name}, {first_name}"` when both parts are present. -/
def Author.name (a : Author) : Option (List Char) :=
  match a.last_name, a.first_name with
  | Option.none, Option.none => Option.none
  | Option.none, some f => some f
  | some l, Option.none => some l
  | some l, some f => some (l ++ ',' :: ' ' :: f)

/-- Python's string comparison: lexicographic on code points. -/
def strLEb : List Char → List Char → Bool
  | [], _ => true
  | _ :: _, [] => false
  | c :: cs, d :: ds => if c = d then strLEb cs ds else decide (c < d)

/-- Ordering of name keys.  On two strings it is Python's lexicographic
comparison; Python raises a `TypeError` when comparing `None` with a string,
so the `none`-vs-`some` ordering here is an arbitrary completion (the claims
only concern inputs on which the source does not raise). -/
def nameLEb : Option (List Char) → Option (List Char) → Bool
  | Option.none, _ => true
  | some _, Option.none => false
  | some s, some t => strLEb s t

/-- `sortRel a b` states that the sort key `(name, affiliation_date)` of `a`
is lexicographically greater than or equal to that of `b`.  A stable sort by
this relation is exactly
`sorted(authors, key=lambda x: (x.name, x.affiliation_date), reverse=True)`:
`List.insertionSort` inserts each element (working from the back of the
original list) in front of the first already-placed element it is related
to, so elements with equal keys stay in input order, as Python's stable
descending sort keeps them. -/
def sortRel (a b : Author) : Prop :=
  (a.name = b.name ∧ b.affiliation_date ≤ a.affiliation_date) ∨
    (a.name ≠ b.name ∧ nameLEb b.name a.name = true)

instance : ∀ a b, Decidable (sortRel a b) := fun _ _ =>
  inferInstanceAs (Decidable (_ ∨ _))

/-- `itertools.groupby(..., key=lambda x: x.name)`: split a list into maximal
runs of authors with equal names.  Each fuel unit consumes at least one
element. -/
def groupRunsF : Nat → List Author → List (List Author)
  | _, [] => []
  | fuel+1, a :: rest =>
    (a :: rest.takeWhile (fun b => decide (b.name = a.name))) ::
      groupRunsF fuel (rest.dropWhile (fun b => decide (b.name = a.name)))
  | 0, l => [l]

def groupRuns (l : List Author) : List (List Author) :=
  groupRunsF l.length l

/-- The per-group selection (source lines 282-291): with
`skip_none_affiliations` the first author of the group with a non-`None`
affiliation is chosen (the whole group being sorted most-recent-first), or
the group head if every affiliation is `None`; otherwise the group head. -/
def pickFromGroup (skip : Bool) : List Author → Option Author
  | [] => Option.none
  | a :: t =>
    if skip then
      if (a :: t).all (fun x => x.affiliation.isNone) then some a
      else (a :: t).find? (fun x => x.affiliation.isSome)
    else some a

/-- `get_latest_affiliations` (source lines 246-293): stable sort by
`(name, affiliation_date)` descending, group consecutive equal names, select
one author per group. -/
def get_latest_affiliations (authors : List Author) (skip_none_affiliations : Bool) :
    List Author :=
  (groupRuns (List.insertionSort sortRel authors)).filterMap
    (pickFromGroup skip_none_affiliations)

/-- The name identifying a run: the name of its head. -/
def runName : List Author → Option (List Char)
  | [] => Option.none
  | a :: _ => a.name

/-- Concrete authors witnessing the deduplicator claims: the docstring
example of `get_latest_affiliations`. -/
def mkYates (d : Nat) (aff : Option (List Char)) (title : List Char) : Author :=
  ⟨some "Yates".toList, some "John R".toList, some "JR".toList, aff, d, some title⟩

def yatesA1 : Author := mkYates 1 (some "TSRI".toList) "Title 1".toList

def yatesA2 : Author := mkYates 2 (some "TSRI".toList) "Title 2".toList

def yatesA3 : Author := mkYates 3 (some "TSRI".toList) "Title 3".toList

def yatesA4 : Author := mkYates 4 Option.none "Title 4".toList

/-! ### Order properties of the sort key -/

theorem strLEb_refl : ∀ s, strLEb s s = true
  | [] => rfl
  | c :: cs => by simp [strLEb, strLEb_refl cs]

theorem strLEb_total : ∀ s t, strLEb s t = true ∨ strLEb t s = true
  | [], _ => Or.inl rfl
  | _ :: _, [] => Or.inr rfl
  | c :: cs, d :: ds => by
    by_cases hcd : c = d
    · subst hcd
      simpa [strLEb] using strLEb_total cs ds
    · have hdc : ¬ d = c := fun h => hcd h.symm
      rcases lt_or_gt_of_ne hcd with h | h
      · exact Or.inl (by simp only [strLEb, if_neg hcd]; exact decide_eq_true h)
      · exact Or.inr (by simp only [strLEb, if_neg hdc]; exact decide_eq_true h)

theorem strLEb_antisymm : ∀ s t, strLEb s t = true → strLEb t s = true → s = t
  | [], [], _, _ => rfl
  | [], _ :: _, _, h2 => by simp [strLEb] at h2
  | _ :: _, [], h1, _ => by simp [strLEb] at h1
  | c :: cs, d :: ds, h1, h2 => by
    by_cases hcd : c = d
    · subst hcd
      simp only [strLEb, if_pos rfl] at h1 h2
      rw [strLEb_antisymm cs ds h1 h2]
    · have hdc : ¬ d = c := fun h => hcd h.symm
      simp only [strLEb, if_neg hcd, if_neg hdc, decide_eq_true_eq] at h1 h2
      exact (lt_asymm h1 h2).elim

theorem strLEb_trans : ∀ s t u, strLEb s t = true → strLEb t u = true → strLEb s u = true
  | [], _, _, _, _ => rfl
  | _ :: _, [], _, h1, _ => by simp [strLEb] at h1
  | _ :: _, _ :: _, [], _, h2 => by simp [strLEb] at h2
  | c :: cs, d :: ds, e :: es, h1, h2 => by
    by_cases hcd : c = d <;> by_cases hde : d = e
    · subst hcd; subst hde
      simp only [strLEb, if_pos rfl] at h1 h2 ⊢
      exact strLEb_trans cs ds es h1 h2
    · subst hcd
      simp only [strLEb, if_neg hde] at h2 ⊢
      exact h2
    · subst hde
      simp only [strLEb, if_neg hcd] at h1 ⊢
      exact h1
    · simp only [strLEb, if_neg hcd, if_neg hde, decide_eq_true_eq] at h1 h2
      have hce : c < e := lt_trans h1 h2
      simp only [strLEb, if_neg (ne_of_lt hce)]
      exact decide_eq_true hce

theorem nameLEb_refl : ∀ x, nameLEb x x = true
  | Option.none => rfl
  | some s => strLEb_refl s

theorem nameLEb_total : ∀ x y, nameLEb x y = true ∨ nameLEb y x = true
  | Option.none, _ => Or.inl rfl
  | some _, Option.none => Or.inr rfl
  | some s, some t => strLEb_total s t

theorem nameLEb_antisymm : ∀ x y, nameLEb x y = true → nameLEb y x = true → x = y
  | Option.none, Option.none, _, _ => rfl
  | Option.none, some _, _, h2 => by simp [nameLEb] at h2
  | some _, Option.none, h1, _ => by simp [nameLEb] at h1
  | some s, some t, h1, h2 => by rw [strLEb_antisymm s t h1 h2]

theorem nameLEb_trans : ∀ x y z, nameLEb x y = true → nameLEb y z = true → nameLEb x z = true
  | Option.none, _, _, _, _ => rfl
  | some _, Option.none, _, h1, _ => by simp [nameLEb] at h1
  | some _, some _, Option.none, _, h2 => by simp [nameLEb] at h2
  | some s, some t, some u, h1, h2 => strLEb_trans s t u h1 h2

theorem sortRel_nameGe {a b : Author} (h : sortRel a b) : nameLEb b.name a.name = true := by
  rcases h with ⟨heq, -⟩ | ⟨-, hle⟩
  · rw [heq]; exact nameLEb_refl _
  · exact hle

instance : IsTotal Author sortRel where
  total a b := by
    by_cases heq : a.name = b.name
    · rcases Nat.le_total b.affiliation_date a.affiliation_date with h | h
      · exact Or.inl (Or.inl ⟨heq, h⟩)
      · exact Or.inr (Or.inl ⟨heq.symm, h⟩)
    · rcases nameLEb_total a.name b.name with h | h
      · exact Or.inr (Or.inr ⟨fun he => heq he.symm, h⟩)
      · exact Or.inl (Or.inr ⟨heq, h⟩)

instance : IsTrans Author sortRel where
  trans a b c hab hbc := by
    rcases hab with ⟨hab1, hab2⟩ | ⟨hab1, hab2⟩ <;>
      rcases hbc with ⟨hbc1, hbc2⟩ | ⟨hbc1, hbc2⟩
    · exact Or.inl ⟨hab1.trans hbc1, le_trans hbc2 hab2⟩
    · exact Or.inr ⟨fun h => hbc1 (hab1.symm.trans h), hab1 ▸ hbc2⟩
    · exact Or.inr ⟨fun h => hab1 (h.trans hbc1.symm), hbc1 ▸ hab2⟩
    · refine Or.inr ⟨fun h => ?_, nameLEb_trans _ _ _ hbc2 hab2⟩
      exact hbc1 (nameLEb_antisymm _ _ hbc2 (h ▸ hab2)).symm

/-! ### Structure of the grouped runs -/

theorem groupRunsF_congr : ∀ f1 f2 (l : List Author), l.length ≤ f1 → l.length ≤ f2 →
    groupRunsF f1 l = groupRunsF f2 l := by
  intro f1
  induction f1 with
  | zero =>
    intro f2 l h1 _
    rw [Nat.le_zero, List.length_eq_zero] at h1
    subst h1
    cases f2 <;> rfl
  | succ n ih =>
    intro f2 l h1 h2
    cases l with
    | nil => cases f2 <;> rfl
    | cons a rest =>
      cases f2 with
      | zero => simp at h2
      | succ m =>
        simp only [groupRunsF, List.cons.injEq, true_and]
        have hd : (rest.dropWhile (fun b => decide (b.name = a.name))).length ≤ rest.length :=
          (List.dropWhile_sublist _).length_le
        simp only [List.length_cons, Nat.succ_le_succ_iff] at h1 h2
        exact ih m _ (le_trans hd h1) (le_trans hd h2)

theorem groupRuns_cons (a : Author) (rest : List Author) :
    groupRuns (a :: rest) =
      (a :: rest.takeWhile (fun b => decide (b.name = a.name))) ::
        groupRuns (rest.dropWhile (fun b => decide (b.name = a.name))) := by
  show groupRunsF (rest.length + 1) (a :: rest) = _
  rw [groupRunsF]
  congr 1
  exact groupRunsF_congr rest.length _ _ ((List.dropWhile_sublist _).length_le) le_rfl

theorem groupRuns_flatten : ∀ l : List Author, (groupRuns l).flatten = l := by
  have key : ∀ fuel l, l.length ≤ fuel → (groupRunsF fuel l).flatten = l := by
    intro fuel
    induction fuel with
    | zero =>
      intro l h
      rw [Nat.le_zero, List.length_eq_zero] at h
      subst h; rfl
    | succ n ih =>
      intro l h
      cases l with
      | nil => rfl
      | cons a rest =>
        simp only [groupRunsF, List.flatten_cons]
        have hd : (rest.dropWhile (fun b => decide (b.name = a.name))).length ≤ rest.length :=
          (List.dropWhile_sublist _).length_le
        simp only [List.length_cons, Nat.succ_le_succ_iff] at h
        rw [ih _ (le_trans hd h)]
        simp [List.takeWhile_append_dropWhile]
  exact fun l => key l.length l le_rfl

theorem mem_of_mem_groupRuns {l : List Author} {g : List Author} {x : Author}
    (hg : g ∈ groupRuns l) (hx : x ∈ g) : x ∈ l := by
  rw [← groupRuns_flatten l]
  exact List.mem_flatten.mpr ⟨g, hg, hx⟩

theorem groupRuns_shape : ∀ l : List Author, ∀ g ∈ groupRuns l,
    ∃ a t, g = a :: t ∧ (∀ x ∈ t, x.name = a.name) := by
  have key : ∀ fuel l, l.length ≤ fuel → ∀ g ∈ groupRunsF fuel l,
      ∃ a t, g = a :: t ∧ (∀ x ∈ t, x.name = a.name) := by
    intro fuel
    induction fuel with
    | zero =>
      intro l h
      rw [Nat.le_zero, List.length_eq_zero] at h
      subst h; intro g hg; cases hg
    | succ n ih =>
      intro l h g hg
      cases l with
      | nil => cases hg
      | cons a rest =>
        simp only [groupRunsF, List.mem_cons] at hg
        rcases hg with rfl | hg
        · refine ⟨a, _, rfl, fun x hx => ?_⟩
          have := List.mem_takeWhile_imp hx
          simpa using this
        · have hd : (rest.dropWhile (fun b => decide (b.name = a.name))).length ≤ rest.length :=
            (List.dropWhile_sublist _).length_le
          simp only [List.length_cons, Nat.succ_le_succ_iff] at h
          exact ih _ (le_trans hd h) g hg
  exact fun l => key l.length l le_rfl

/-- In a sorted list, everything after the leading equal-name run has a
different name from the head. -/
theorem dropWhile_name_ne {a : Author} {rest : List Author}
    (h : (a :: rest).Pairwise sortRel) :
    ∀ z ∈ rest.dropWhile (fun b => decide (b.name = a.name)), z.name ≠ a.name := by
  intro z hz
  rcases List.pairwise_cons.mp h with ⟨ha, hrest⟩
  cases hw : rest.dropWhile (fun b => decide (b.name = a.name)) with
  | nil => rw [hw] at hz; cases hz
  | cons y ys =>
    rw [hw] at hz
    have hy : ¬ (y.name = a.name) := by
      have := List.head?_dropWhile_not (fun b => decide (b.name = a.name)) rest
      rw [hw] at this
      simpa using this
    have hysub : List.Sublist (y :: ys) rest := hw ▸ List.dropWhile_sublist _
    rcases List.mem_cons.mp hz with rfl | hzys
    · exact hy
    · have hpw : (y :: ys).Pairwise sortRel := hrest.sublist hysub
      have hyz : sortRel y z := (List.pairwise_cons.mp hpw).1 z hzys
      have hay : sortRel a y := ha y (hysub.subset (List.mem_cons_self y ys))
      intro hzname
      have h1 := sortRel_nameGe hyz
      have h2 := sortRel_nameGe hay
      rw [hzname] at h1
      exact hy (nameLEb_antisymm _ _ h2 h1)

/-- Decomposition of a sorted list around any one of its runs: the run is a
contiguous block carrying all of the occurrences of its name. -/
theorem groupRuns_decomp : ∀ l : List Author, l.Pairwise sortRel →
    ∀ g ∈ groupRuns l, ∃ a t pre post,
      g = a :: t ∧ (∀ x ∈ t, x.name = a.name) ∧ l = pre ++ (a :: t) ++ post ∧
      (∀ y ∈ pre, y.name ≠ a.name) ∧ (∀ y ∈ post, y.name ≠ a.name) := by
  have key : ∀ fuel l, l.length ≤ fuel → l.Pairwise sortRel →
      ∀ g ∈ groupRunsF fuel l, ∃ a t pre post,
        g = a :: t ∧ (∀ x ∈ t, x.name = a.name) ∧ l = pre ++ (a :: t) ++ post ∧
        (∀ y ∈ pre, y.name ≠ a.name) ∧ (∀ y ∈ post, y.name ≠ a.name) := by
    intro fuel
    induction fuel with
    | zero =>
      intro l h
      rw [Nat.le_zero, List.length_eq_zero] at h
      subst h; intro _ g hg; cases hg
    | succ n ih =>
      intro l hlen hsort g hg
      cases l with
      | nil => cases hg
      | cons a rest =>
        simp only [groupRunsF, List.mem_cons] at hg
        have hsplit : rest.takeWhile (fun b => decide (b.name = a.name)) ++
            rest.dropWhile (fun b => decide (b.name = a.name)) = rest :=
          List.takeWhile_append_dropWhile _ _
        rcases hg with rfl | hg
        · refine ⟨a, rest.takeWhile (fun b => decide (b.name = a.name)), [],
            rest.dropWhile (fun b => decide (b.name = a.name)), rfl, ?_, ?_, ?_, ?_⟩
          · intro x hx
            simpa using List.mem_takeWhile_imp hx
          · simp [hsplit]
          · intro y hy; cases hy
          · exact fun y hy => dropWhile_name_ne hsort y hy
        · have hd : (rest.dropWhile (fun b => decide (b.name = a.name))).length ≤
              rest.length := (List.dropWhile_sublist _).length_le
          simp only [List.length_cons, Nat.succ_le_succ_iff] at hlen
          have hsort2 : (rest.dropWhile (fun b => decide (b.name = a.name))).Pairwise
              sortRel :=
            ((List.pairwise_cons.mp hsort).2).sublist (List.dropWhile_sublist _)
          obtain ⟨a2, t2, pre2, post2, hgeq, ht2, heq2, hpre2, hpost2⟩ :=
            ih _ (le_trans hd hlen) hsort2 g hg
          have ha2mem : a2 ∈ rest.dropWhile (fun b => decide (b.name = a.name)) := by
            rw [heq2]
            simp
          have ha2ne : a2.name ≠ a.name := dropWhile_name_ne hsort a2 ha2mem
          refine ⟨a2, t2, a :: rest.takeWhile (fun b => decide (b.name = a.name)) ++ pre2,
            post2, hgeq, ht2, ?_, ?_, hpost2⟩
          · conv_lhs => rw [show rest =
              List.takeWhile (fun b => decide (b.name = a.name)) rest ++
                (pre2 ++ a2 :: t2 ++ post2) from by rw [← heq2, hsplit]]
            simp [List.append_assoc]
          · intro y hy
            simp only [List.cons_append, List.mem_cons, List.mem_append] at hy
            rcases hy with rfl | hy2 | hy3
            · exact fun hne => ha2ne hne.symm
            · have := List.mem_takeWhile_imp hy2
              simp only [decide_eq_true_eq] at this
              rw [this]
              exact fun hne => ha2ne hne.symm
            · exact hpre2 y hy3
  exact fun l => key l.length l le_rfl

/-- The names of the runs of a sorted list are pairwise distinct. -/
theorem groupRuns_names_nodup : ∀ l : List Author, l.Pairwise sortRel →
    ((groupRuns l).map runName).Nodup := by
  have key : ∀ fuel l, l.length ≤ fuel → l.Pairwise sortRel →
      ((groupRunsF fuel l).map runName).Nodup := by
    intro fuel
    induction fuel with
    | zero =>
      intro l h
      rw [Nat.le_zero, List.length_eq_zero] at h
      subst h; intro _; exact List.nodup_nil
    | succ n ih =>
      intro l hlen hsort
      cases l with
      | nil => exact List.nodup_nil
      | cons a rest =>
        have hd : (rest.dropWhile (fun b => decide (b.name = a.name))).length ≤
            rest.length := (List.dropWhile_sublist _).length_le
        simp only [List.length_cons, Nat.succ_le_succ_iff] at hlen
        have hsort2 : (rest.dropWhile (fun b => decide (b.name = a.name))).Pairwise
            sortRel :=
          ((List.pairwise_cons.mp hsort).2).sublist (List.dropWhile_sublist _)
        simp only [groupRunsF, List.map_cons, List.nodup_cons]
        refine ⟨?_, ih _ (le_trans hd hlen) hsort2⟩
        intro hmem
        rw [List.mem_map] at hmem
        obtain ⟨g, hg, hname⟩ := hmem
        obtain ⟨a2, t2, hgeq⟩ := by
          have := groupRuns_shape (rest.dropWhile (fun b => decide (b.name = a.name)))
          rw [groupRuns] at this
          rw [groupRunsF_congr _ n _ le_rfl (le_trans hd hlen)] at this
          exact this g hg
        obtain ⟨hgeq, -⟩ := hgeq
        have ha2mem : a2 ∈ rest.dropWhile (fun b => decide (b.name = a.name)) := by
          have : a2 ∈ g := by rw [hgeq]; exact List.mem_cons_self _ _
          have hflat := groupRuns_flatten (rest.dropWhile (fun b => decide (b.name = a.name)))
          rw [groupRuns, groupRunsF_congr _ n _ le_rfl (le_trans hd hlen)] at hflat
          rw [← hflat]
          exact List.mem_flatten.mpr ⟨g, hg, this⟩
        have := dropWhile_name_ne hsort a2 ha2mem
        rw [hgeq] at hname
        exact this (by simpa [runName] using hname)
  exact fun l => key l.length l le_rfl

/-- The selected author of a group belongs to the group. -/
theorem pickFromGroup_mem {skip : Bool} {g : List Author} {x : Author}
    (h : pickFromGroup skip g = some x) : x ∈ g := by
  cases g with
  | nil => cases h
  | cons a t =>
    simp only [pickFromGroup] at h
    by_cases hs : skip
    · rw [if_pos hs] at h
      by_cases hall : (a :: t).all (fun x => x.affiliation.isNone)
      · rw [if_pos hall] at h
        cases h
        exact List.mem_cons_self _ _
      · rw [if_neg hall] at h
        exact List.mem_of_find?_eq_some h
    · rw [if_neg hs] at h
      cases h
      exact List.mem_cons_self _ _

/-- A nonempty group always yields a selected author. -/
theorem pickFromGroup_isSome (skip : Bool) (a : Author) (t : List Author) :
    ∃ x, pickFromGroup skip (a :: t) = some x := by
  simp only [pickFromGroup]
  by_cases hs : skip
  · rw [if_pos hs]
    by_cases hall : (a :: t).all (fun x => x.affiliation.isNone)
    · exact ⟨a, if_pos hall⟩
    · rw [if_neg hall]
      rw [List.all_eq_true] at hall
      push_neg at hall
      obtain ⟨y, hy, hyaff⟩ := hall
      have hx : ((a :: t).find? (fun x => x.affiliation.isSome)).isSome = true := by
        rw [List.find?_isSome]
        exact ⟨y, hy, by simp [Option.isSome_iff_ne_none] at hyaff ⊢; exact hyaff⟩
      rcases Option.isSome_iff_exists.mp hx with ⟨z, hz⟩
      exact ⟨z, hz⟩
  · rw [if_neg hs]
    exact ⟨a, rfl⟩


/-- Selecting one author from every run maps the output names to the run
names. -/
theorem filterMap_pick_map_name (skip : Bool) : ∀ runs : List (List Author),
    (∀ g ∈ runs, ∃ a t, g = a :: t ∧ ∀ x ∈ t, x.name = a.name) →
    (runs.filterMap (pickFromGroup skip)).map Author.name = runs.map runName := by
  intro runs
  induction runs with
  | nil => intro _; rfl
  | cons g rs ih =>
    intro h
    obtain ⟨a, t, hg, ht⟩ := h g (List.mem_cons_self _ _)
    subst hg
    obtain ⟨x, hx⟩ := pickFromGroup_isSome skip a t
    have hxname : x.name = a.name := by
      rcases List.mem_cons.mp (pickFromGroup_mem hx) with rfl | hxt
      · rfl
      · exact ht x hxt
    simp only [List.filterMap_cons, hx, List.map_cons]
    rw [ih (fun g hg => h g (List.mem_cons_of_mem _ hg))]
    simp [runName, hxname]

/-- Membership characterisation of the run around a selected author, together
with everything the per-group claims need. -/
theorem out_run_spec {authors : List Author} {skip : Bool} {x : Author}
    (hx : x ∈ get_latest_affiliations authors skip) :
    ∃ a t, pickFromGroup skip (a :: t) = some x ∧ (∀ z ∈ t, z.name = a.name) ∧
      (a :: t).Pairwise sortRel ∧
      (∀ y, y ∈ a :: t ↔ (y ∈ authors ∧ y.name = a.name)) ∧
      ∃ pre post, List.insertionSort sortRel authors = pre ++ (a :: t) ++ post ∧
        (∀ y ∈ pre, y.name ≠ a.name) := by
  unfold get_latest_affiliations at hx
  rw [List.mem_filterMap] at hx
  obtain ⟨g, hg, hpick⟩ := hx
  have hsorted : (List.insertionSort sortRel authors).Pairwise sortRel :=
    List.sorted_insertionSort sortRel authors
  obtain ⟨a, t, pre, post, hgeq, ht, heq, hpre, hpost⟩ :=
    groupRuns_decomp _ hsorted g hg
  subst hgeq
  have hsub : List.Sublist (a :: t) (List.insertionSort sortRel authors) := by
    rw [heq, List.append_assoc]
    exact (List.sublist_append_left _ _).trans (List.sublist_append_right _ _)
  refine ⟨a, t, hpick, ht, hsorted.sublist hsub, ?_, pre, post, heq, hpre⟩
  intro y
  constructor
  · intro hy
    refine ⟨?_, ?_⟩
    · have : y ∈ List.insertionSort sortRel authors := hsub.subset hy
      rwa [List.mem_insertionSort] at this
    · rcases List.mem_cons.mp hy with rfl | hyt
      · rfl
      · exact ht y hyt
  · rintro ⟨hy, hyname⟩
    have : y ∈ List.insertionSort sortRel authors := (List.mem_insertionSort sortRel).mpr hy
    rw [heq] at this
    rcases List.mem_append.mp this with h1 | h2
    · rcases List.mem_append.mp h1 with h3 | h4
      · exact absurd hyname (hpre y h3)
      · exact h4
    · exact absurd hyname (hpost y h2)

/-- Inside one run of the sorted list, the head carries the maximal date. -/
theorem run_head_date_max {a : Author} {t : List Author}
    (hpw : (a :: t).Pairwise sortRel) (ht : ∀ z ∈ t, z.name = a.name) :
    ∀ y ∈ a :: t, y.affiliation_date ≤ a.affiliation_date := by
  intro y hy
  rcases List.mem_cons.mp hy with rfl | hyt
  · exact le_rfl
  · have hay : sortRel a y := (List.pairwise_cons.mp hpw).1 y hyt
    rcases hay with ⟨-, hd⟩ | ⟨hne, -⟩
    · exact hd
    · exact absurd (ht y hyt).symm hne

/-- C1: on input in which every record has a non-null identity,
`get_latest_affiliations` returns exactly one record for each distinct
identity occurring in the input and no record with any other identity,
regardless of `skip_none_affiliations`. -/
theorem claim_C1 (authors : List Author) (skip : Bool)
    (h : ∀ a ∈ authors, (Author.name a).isSome) :
    ((get_latest_affiliations authors skip).map Author.name).Nodup ∧
    ∀ n, n ∈ (get_latest_affiliations authors skip).map Author.name ↔
      n ∈ authors.map Author.name := by
  clear h
  have hsorted : (List.insertionSort sortRel authors).Pairwise sortRel :=
    List.sorted_insertionSort sortRel authors
  have hshape := groupRuns_shape (List.insertionSort sortRel authors)
  have hmapeq := filterMap_pick_map_name skip _ hshape
  unfold get_latest_affiliations
  rw [hmapeq]
  refine ⟨groupRuns_names_nodup _ hsorted, fun n => ?_⟩
  constructor
  · intro hn
    rw [List.mem_map] at hn
    obtain ⟨g, hg, hname⟩ := hn
    obtain ⟨a, t, hgeq, -⟩ := hshape g hg
    have ha : a ∈ List.insertionSort sortRel authors :=
      mem_of_mem_groupRuns hg (hgeq ▸ List.mem_cons_self _ _)
    rw [List.mem_insertionSort] at ha
    rw [List.mem_map]
    refine ⟨a, ha, ?_⟩
    rw [← hname, hgeq]
    rfl
  · intro hn
    rw [List.mem_map] at hn
    obtain ⟨x, hxmem, hname⟩ := hn
    have hxS : x ∈ List.insertionSort sortRel authors := (List.mem_insertionSort sortRel).mpr hxmem
    have hxflat : x ∈ (groupRuns (List.insertionSort sortRel authors)).flatten := by
      rw [groupRuns_flatten]
      exact hxS
    obtain ⟨g, hg, hxg⟩ := List.mem_flatten.mp hxflat
    obtain ⟨a, t, hgeq, ht⟩ := hshape g hg
    have hxname : x.name = a.name := by
      rcases List.mem_cons.mp (hgeq ▸ hxg) with rfl | hxt
      · rfl
      · exact ht x hxt
    rw [List.mem_map]
    refine ⟨g, hg, ?_⟩
    rw [hgeq]
    show a.name = n
    rw [← hxname]
    exact hname

/-- Witness for C1 at the source docstring example. -/
theorem claim_C1_witness :
    (∀ a ∈ [yatesA1, yatesA2, yatesA3, yatesA4], (Author.name a).isSome) ∧
    (((get_latest_affiliations [yatesA1, yatesA2, yatesA3, yatesA4] true).map
        Author.name).Nodup ∧
      ∀ n, n ∈ (get_latest_affiliations [yatesA1, yatesA2, yatesA3, yatesA4] true).map
          Author.name ↔
        n ∈ [yatesA1, yatesA2, yatesA3, yatesA4].map Author.name) :=
  ⟨by decide, claim_C1 [yatesA1, yatesA2, yatesA3, yatesA4] true (by decide)⟩

/-- C10: every record in the output of `get_latest_affiliations` is literally
one of the records of the input list, with all of its fields unchanged: the
deduplicator never constructs new records or rewrites any field. -/
theorem claim_C10 (authors : List Author) (skip : Bool) :
    ∀ x ∈ get_latest_affiliations authors skip, x ∈ authors := by
  intro x hx
  unfold get_latest_affiliations at hx
  rw [List.mem_filterMap] at hx
  obtain ⟨g, hg, hpick⟩ := hx
  have hxg := pickFromGroup_mem hpick
  have := mem_of_mem_groupRuns hg hxg
  rwa [List.mem_insertionSort] at this

/-- Witness for C10 at the source docstring example. -/
theorem claim_C10_witness :
    yatesA3 ∈ get_latest_affiliations [yatesA1, yatesA2, yatesA3, yatesA4] true ∧
    yatesA3 ∈ [yatesA1, yatesA2, yatesA3, yatesA4] :=
  ⟨by decide, claim_C10 [yatesA1, yatesA2, yatesA3, yatesA4] true yatesA3 (by decide)⟩


/-- Stability of `orderedInsert` on a class of pairwise-related elements:
filtering by a predicate whose satisfying elements are all related keeps the
original relative order, with the inserted element in front. -/
theorem filter_orderedInsert_rel (q : Author → Bool)
    (hq : ∀ u v, q u = true → q v = true → sortRel u v) (a : Author) :
    ∀ l, (List.orderedInsert sortRel a l).filter q =
      if q a then a :: l.filter q else l.filter q := by
  intro l
  induction l with
  | nil => simp only [List.orderedInsert, List.filter_cons, List.filter_nil]
  | cons b bs ih =>
    rw [List.orderedInsert]
    by_cases hab : sortRel a b
    · rw [if_pos hab]
      by_cases hqa : q a
      · simp [List.filter_cons, hqa]
      · simp [List.filter_cons, hqa]
    · rw [if_neg hab]
      by_cases hqb : q b
      · have hqa : ¬ (q a = true) := fun hqa => hab (hq a b hqa hqb)
        simp [List.filter_cons, hqb, hqa, ih]
      · simp [List.filter_cons, hqb, ih]

/-- Stability of the sort: filtering an equal-key class commutes with
sorting, so the first element of the class in the sorted list is the first
element of the class in the input. -/
theorem filter_insertionSort_rel (q : Author → Bool)
    (hq : ∀ u v, q u = true → q v = true → sortRel u v) :
    ∀ l, (List.insertionSort sortRel l).filter q = l.filter q := by
  intro l
  induction l with
  | nil => rfl
  | cons a l ih =>
    show (List.orderedInsert sortRel a (List.insertionSort sortRel l)).filter q = _
    rw [filter_orderedInsert_rel q hq a, ih, List.filter_cons]

/-- C2: with `skip_none_affiliations = true`, for every identity group: if at
least one record of the group has a non-null affiliation, the returned
record's affiliation is non-null and its date is greater than or equal to the
date of every record of the group with a non-null affiliation; if every
record of the group has a null affiliation, the most recent record of the
group is returned, with its null affiliation. -/
theorem claim_C2 (authors : List Author)
    (h : ∀ a ∈ authors, (Author.name a).isSome)
    (x : Author) (hx : x ∈ get_latest_affiliations authors true) :
    ((∃ y ∈ authors.filter (fun y => decide (y.name = x.name)),
        y.affiliation ≠ Option.none) →
      x.affiliation ≠ Option.none ∧
      ∀ y ∈ authors.filter (fun y => decide (y.name = x.name)),
        y.affiliation ≠ Option.none → y.affiliation_date ≤ x.affiliation_date) ∧
    ((∀ y ∈ authors.filter (fun y => decide (y.name = x.name)),
        y.affiliation = Option.none) →
      x.affiliation = Option.none ∧
      x ∈ authors.filter (fun y => decide (y.name = x.name)) ∧
      ∀ y ∈ authors.filter (fun y => decide (y.name = x.name)),
        y.affiliation_date ≤ x.affiliation_date) := by
  clear h
  obtain ⟨a, t, hpick, ht, hpw, hiff, -⟩ := out_run_spec hx
  have hxat : x ∈ a :: t := pickFromGroup_mem hpick
  have hxname : x.name = a.name := by
    rcases List.mem_cons.mp hxat with rfl | hxt
    · rfl
    · exact ht x hxt
  have hgrp : ∀ y, y ∈ authors.filter (fun y => decide (y.name = x.name)) ↔ y ∈ a :: t := by
    intro y
    rw [List.mem_filter, decide_eq_true_eq, hxname, hiff y]
  have hpick2 : (if (a :: t).all (fun z => z.affiliation.isNone) = true
      then some a else (a :: t).find? (fun z => z.affiliation.isSome)) = some x := hpick
  by_cases hall : (a :: t).all (fun z => z.affiliation.isNone)
  · rw [if_pos hall] at hpick2
    injection hpick2 with hax
    rw [List.all_eq_true] at hall
    constructor
    · rintro ⟨y, hy, hyaff⟩
      have := hall y ((hgrp y).mp hy)
      rw [Option.isNone_iff_eq_none] at this
      exact absurd this hyaff
    · intro _
      refine ⟨?_, ?_, ?_⟩
      · have := hall x hxat
        rwa [Option.isNone_iff_eq_none] at this
      · exact (hgrp x).mpr hxat
      · intro y hy
        rw [← hax]
        exact run_head_date_max hpw ht y ((hgrp y).mp hy)
  · rw [if_neg hall] at hpick2
    have hxaff : x.affiliation.isSome = true := by
      have h2 := List.find?_some hpick2
      simpa using h2
    rw [List.find?_eq_some] at hpick2
    obtain ⟨-, as, bs, hsplit, has⟩ := hpick2
    constructor
    · intro hex
      clear hex
      refine ⟨?_, ?_⟩
      · rw [← Option.isSome_iff_ne_none]
        exact hxaff
      · intro y hy hyaff
        have hyat : y ∈ a :: t := (hgrp y).mp hy
        rw [hsplit] at hyat
        rcases List.mem_append.mp hyat with hyas | hyxbs
        · have hnone := has y hyas
          rw [Bool.not_eq_true'] at hnone
          exact absurd (Option.not_isSome_iff_eq_none.mp (by simp [hnone])) hyaff
        · rcases List.mem_cons.mp hyxbs with rfl | hybs
          · exact le_rfl
          · have hpw2 : (x :: bs).Pairwise sortRel := by
              have hpw3 := hsplit ▸ hpw
              exact (List.pairwise_append.mp hpw3).2.1
            have hxy : sortRel x y := (List.pairwise_cons.mp hpw2).1 y hybs
            rcases hxy with ⟨-, hd⟩ | ⟨hne, -⟩
            · exact hd
            · have hyname : y.name = a.name := by
                have hyat2 : y ∈ a :: t := (hgrp y).mp hy
                rcases List.mem_cons.mp hyat2 with rfl | hyt
                · rfl
                · exact ht y hyt
              exact absurd (hxname.trans hyname.symm) hne
    · intro hallgrp
      have hxnone := hallgrp x ((hgrp x).mpr hxat)
      rw [hxnone] at hxaff
      cases hxaff

/-- Witness for C2 at the source docstring example. -/
theorem claim_C2_witness :
    (∀ a ∈ [yatesA1, yatesA2, yatesA3, yatesA4], (Author.name a).isSome) ∧
    yatesA3 ∈ get_latest_affiliations [yatesA1, yatesA2, yatesA3, yatesA4] true ∧
    ((∃ y ∈ [yatesA1, yatesA2, yatesA3, yatesA4].filter
          (fun y => decide (y.name = yatesA3.name)), y.affiliation ≠ Option.none) →
      yatesA3.affiliation ≠ Option.none ∧
      ∀ y ∈ [yatesA1, yatesA2, yatesA3, yatesA4].filter
          (fun y => decide (y.name = yatesA3.name)),
        y.affiliation ≠ Option.none → y.affiliation_date ≤ yatesA3.affiliation_date) :=
  ⟨by decide, by decide,
    (claim_C2 [yatesA1, yatesA2, yatesA3, yatesA4] (by decide) yatesA3 (by decide)).1⟩

/-- C3: with `skip_none_affiliations = false`, the returned record of each
identity group carries the maximum date of the group, and among records tying
on that maximum date the one earliest in the original input order is
returned. -/
theorem claim_C3 (authors : List Author)
    (h : ∀ a ∈ authors, (Author.name a).isSome)
    (x : Author) (hx : x ∈ get_latest_affiliations authors false) :
    (∀ y ∈ authors, y.name = x.name → y.affiliation_date ≤ x.affiliation_date) ∧
    (authors.filter (fun y =>
        decide (y.name = x.name ∧ y.affiliation_date = x.affiliation_date))).head? =
      some x := by
  clear h
  obtain ⟨a, t, hpick, ht, hpw, hiff, pre, post, heq, hpre⟩ := out_run_spec hx
  have hpick2 : some a = some x := hpick
  injection hpick2 with hax
  subst hax
  constructor
  · intro y hy hyname
    exact run_head_date_max hpw ht y ((hiff y).mpr ⟨hy, hyname⟩)
  · have hqrel : ∀ u v,
        (fun y => decide (y.name = a.name ∧ y.affiliation_date = a.affiliation_date)) u =
          true →
        (fun y => decide (y.name = a.name ∧ y.affiliation_date = a.affiliation_date)) v =
          true →
        sortRel u v := by
      intro u v hu hv
      simp only [decide_eq_true_eq] at hu hv
      exact Or.inl ⟨hu.1.trans hv.1.symm, hv.2.le.trans hu.2.ge⟩
    have hstable := filter_insertionSort_rel _ hqrel authors
    rw [← hstable, heq]
    have hprefilter : pre.filter
        (fun y => decide (y.name = a.name ∧ y.affiliation_date = a.affiliation_date)) =
        [] := by
      rw [List.filter_eq_nil_iff]
      intro y hy
      rw [decide_eq_true_eq]
      rintro ⟨h1, -⟩
      exact hpre y hy h1
    have hqa : (fun y => decide (y.name = a.name ∧ y.affiliation_date = a.affiliation_date))
        a = true := by
      rw [decide_eq_true_eq]
      exact ⟨rfl, rfl⟩
    rw [List.filter_append, List.filter_append, hprefilter, List.filter_cons, if_pos hqa]
    simp

/-- Witness for C3 at the source docstring example. -/
theorem claim_C3_witness :
    (∀ a ∈ [yatesA1, yatesA2, yatesA3, yatesA4], (Author.name a).isSome) ∧
    yatesA4 ∈ get_latest_affiliations [yatesA1, yatesA2, yatesA3, yatesA4] false ∧
    (∀ y ∈ [yatesA1, yatesA2, yatesA3, yatesA4], y.name = yatesA4.name →
      y.affiliation_date ≤ yatesA4.affiliation_date) ∧
    ([yatesA1, yatesA2, yatesA3, yatesA4].filter (fun y =>
        decide (y.name = yatesA4.name ∧
          y.affiliation_date = yatesA4.affiliation_date))).head? = some yatesA4 :=
  ⟨by decide, by decide,
    (claim_C3 [yatesA1, yatesA2, yatesA3, yatesA4] (by decide) yatesA4 (by decide)).1,
    (claim_C3 [yatesA1, yatesA2, yatesA3, yatesA4] (by decide) yatesA4 (by decide)).2⟩


/-! ### Idempotence of clean_affiliations -/

theorem collapseWs_ws_eq_space : ∀ l, ∀ c ∈ collapseWs l, pyIsSpace c = true → c = ' ' := by
  intro l
  induction l with
  | nil => intro c hc; cases hc
  | cons d cs ih =>
    intro c hc hcs
    simp only [collapseWs] at hc
    by_cases hd : pyIsSpace d = true
    · rw [if_pos hd] at hc
      by_cases hh : (collapseWs cs).head?.any pyIsSpace = true
      · rw [if_pos hh] at hc
        exact ih c hc hcs
      · rw [if_neg hh] at hc
        rcases List.mem_cons.mp hc with rfl | hc2
        · rfl
        · exact ih c hc2 hcs
    · rw [if_neg hd] at hc
      rcases List.mem_cons.mp hc with rfl | hc2
      · exact absurd hcs hd
      · exact ih c hc2 hcs

theorem collapseWs_head (d : Char) (cs : List Char) :
    (collapseWs (d :: cs)).head? = some (if pyIsSpace d = true then ' ' else d) := by
  simp only [collapseWs]
  by_cases hd : pyIsSpace d = true
  · rw [if_pos hd, if_pos hd]
    by_cases hh : (collapseWs cs).head?.any pyIsSpace = true
    · rw [if_pos hh]
      cases hr : (collapseWs cs).head? with
      | none => rw [hr] at hh; cases hh
      | some e =>
        rw [hr] at hh
        simp only [Option.any_some] at hh
        have he : e ∈ collapseWs cs := by
          cases hcs : collapseWs cs with
          | nil => rw [hcs] at hr; cases hr
          | cons f fs =>
            rw [hcs] at hr
            injection hr with hr2
            rw [hr2]
            exact List.mem_cons_self _ _
        rw [collapseWs_ws_eq_space cs e he hh]
    · rw [if_neg hh]
      rfl
  · rw [if_neg hd, if_neg hd]
    rfl

theorem collapseWs_chain_adj : ∀ l, List.Chain'
    (fun a b => ¬(pyIsSpace a = true ∧ pyIsSpace b = true)) (collapseWs l) := by
  intro l
  induction l with
  | nil => exact List.chain'_nil
  | cons d cs ih =>
    simp only [collapseWs]
    by_cases hd : pyIsSpace d = true
    · rw [if_pos hd]
      by_cases hh : (collapseWs cs).head?.any pyIsSpace = true
      · rw [if_pos hh]
        exact ih
      · rw [if_neg hh]
        rw [List.chain'_cons']
        refine ⟨?_, ih⟩
        intro b hb
        rintro ⟨-, hbs⟩
        refine hh ?_
        cases hr : (collapseWs cs).head? with
        | none => rw [hr] at hb; cases hb
        | some e =>
          rw [hr] at hb
          have hbe : e = b := by simpa using hb
          simp only [Option.any_some]
          rw [hbe]
          exact hbs
    · rw [if_neg hd]
      rw [List.chain'_cons']
      refine ⟨?_, ih⟩
      intro b hb
      rintro ⟨hds, -⟩
      exact hd hds

theorem collapseWs_chain_target (t : Char) (hnt : pyIsSpace t = false) :
    ∀ l, List.Chain' (fun a b => ¬(pyIsSpace a = true ∧ b = t)) l →
      List.Chain' (fun a b => ¬(pyIsSpace a = true ∧ b = t)) (collapseWs l) := by
  intro l
  induction l with
  | nil => intro _; exact List.chain'_nil
  | cons d cs ih =>
    intro h
    rw [List.chain'_cons'] at h
    obtain ⟨hhead, htail⟩ := h
    simp only [collapseWs]
    by_cases hd : pyIsSpace d = true
    · rw [if_pos hd]
      by_cases hh : (collapseWs cs).head?.any pyIsSpace = true
      · rw [if_pos hh]
        exact ih htail
      · rw [if_neg hh]
        rw [List.chain'_cons']
        refine ⟨?_, ih htail⟩
        intro b hb
        rintro ⟨-, rfl⟩
        cases cs with
        | nil => simp [collapseWs] at hb
        | cons e es =>
          rw [collapseWs_head e es] at hb
          injection hb with hb2
          by_cases he : pyIsSpace e = true
          · rw [if_pos he] at hb2
            rw [← hb2] at hnt
            simp [pyIsSpace] at hnt
          · rw [if_neg he] at hb2
            exact (hhead e rfl) ⟨hd, hb2⟩
    · rw [if_neg hd]
      rw [List.chain'_cons']
      refine ⟨?_, ih htail⟩
      intro b hb
      rintro ⟨hds, -⟩
      exact hd hds

theorem stripWsBefore_chain (t : Char) : ∀ l,
    List.Chain' (fun a b => ¬(pyIsSpace a = true ∧ b = t)) (stripWsBefore t l) := by
  intro l
  induction l with
  | nil => exact List.chain'_nil
  | cons c cs ih =>
    simp only [stripWsBefore]
    by_cases hcond : pyIsSpace c = true ∧ (stripWsBefore t cs).head? = some t
    · rw [if_pos hcond]
      exact ih
    · rw [if_neg hcond]
      rw [List.chain'_cons']
      refine ⟨?_, ih⟩
      intro b hb
      rintro ⟨hcs, rfl⟩
      exact hcond ⟨hcs, hb⟩

theorem replaceNewlines_id : ∀ l, ('\n' ∉ l) → replaceNewlines l = l := by
  intro l
  induction l with
  | nil => intro _; rfl
  | cons c cs ih =>
    intro h
    simp only [replaceNewlines]
    rw [if_neg, ih]
    · intro hmem
      exact h (List.mem_cons_of_mem _ hmem)
    · intro hc
      exact h (hc ▸ List.mem_cons_self _ _)

theorem stripWsBefore_id (t : Char) : ∀ l,
    List.Chain' (fun a b => ¬(pyIsSpace a = true ∧ b = t)) l → stripWsBefore t l = l := by
  intro l
  induction l with
  | nil => intro _; rfl
  | cons c cs ih =>
    intro h
    rw [List.chain'_cons'] at h
    obtain ⟨hhead, htail⟩ := h
    simp only [stripWsBefore]
    rw [ih htail, if_neg]
    rintro ⟨hcs, hht⟩
    exact (hhead t hht) ⟨hcs, rfl⟩

theorem collapseWs_id : ∀ l, (∀ c ∈ l, pyIsSpace c = true → c = ' ') →
    List.Chain' (fun a b => ¬(pyIsSpace a = true ∧ pyIsSpace b = true)) l →
    collapseWs l = l := by
  intro l
  induction l with
  | nil => intro _ _; rfl
  | cons d cs ih =>
    intro hws h
    rw [List.chain'_cons'] at h
    obtain ⟨hhead, htail⟩ := h
    have hcs : collapseWs cs = cs :=
      ih (fun c hc => hws c (List.mem_cons_of_mem _ hc)) htail
    simp only [collapseWs, hcs]
    by_cases hd : pyIsSpace d = true
    · rw [if_pos hd]
      have hdspace : d = ' ' := hws d (List.mem_cons_self _ _) hd
      have hany : cs.head?.any pyIsSpace = false := by
        cases hh : cs.head? with
        | none => rfl
        | some e =>
          simp only [Option.any_some]
          by_cases he : pyIsSpace e = true
          · exact absurd ⟨hd, he⟩ (hhead e hh)
          · simpa using he
      rw [hany]
      simp only [Bool.false_eq_true, if_neg, reduceIte]
      rw [hdspace]
    · rw [if_neg hd]

theorem dropWhile_eq_self_of_head {p : Char → Bool} {l : List Char}
    (h : ∀ c ∈ l.head?, p c = false) : l.dropWhile p = l := by
  cases l with
  | nil => rfl
  | cons c cs =>
    rw [List.dropWhile_cons_of_neg]
    simp [h c rfl]

theorem stripList_id : ∀ l, (∀ c ∈ l.head?, pyIsSpace c = false) →
    (∀ c ∈ l.getLast?, pyIsSpace c = false) → stripList l = l := by
  intro l hh hl
  unfold stripList
  have h1 : l.reverse.dropWhile pyIsSpace = l.reverse := by
    apply dropWhile_eq_self_of_head
    intro c hc
    rw [List.head?_reverse] at hc
    exact hl c hc
  rw [h1, List.reverse_reverse]
  exact dropWhile_eq_self_of_head hh

theorem mem_stripList {c : Char} {l : List Char} (h : c ∈ stripList l) : c ∈ l := by
  unfold stripList at h
  have h2 := (List.dropWhile_sublist pyIsSpace).subset h
  rw [List.mem_reverse] at h2
  have h3 := (List.dropWhile_sublist pyIsSpace).subset h2
  rwa [List.mem_reverse] at h3

theorem chain'_dropWhile {R : Char → Char → Prop} {p : Char → Bool} {l : List Char}
    (h : List.Chain' R l) : List.Chain' R (l.dropWhile p) := by
  obtain ⟨u, hu⟩ := (List.dropWhile_suffix p : List.IsSuffix (l.dropWhile p) l)
  rw [← hu] at h
  exact (List.chain'_append.mp h).2.1

theorem chain'_stripList {R : Char → Char → Prop} {l : List Char}
    (h : List.Chain' R l) : List.Chain' R (stripList l) := by
  unfold stripList
  apply chain'_dropWhile
  rw [List.chain'_reverse]
  apply chain'_dropWhile
  rw [List.chain'_reverse]
  exact h

theorem stripList_head (l : List Char) :
    ∀ c ∈ (stripList l).head?, pyIsSpace c = false := by
  intro c hc
  unfold stripList at hc
  have := List.head?_dropWhile_not pyIsSpace ((l.reverse.dropWhile pyIsSpace).reverse)
  cases hh : ((l.reverse.dropWhile pyIsSpace).reverse.dropWhile pyIsSpace).head? with
  | none => rw [hh] at hc; cases hc
  | some e =>
    rw [hh] at this hc
    cases hc
    exact this

theorem stripList_getLast (l : List Char) :
    ∀ c ∈ (stripList l).getLast?, pyIsSpace c = false := by
  intro c hc
  unfold stripList at hc
  obtain ⟨u, hu⟩ := (List.dropWhile_suffix pyIsSpace :
    List.IsSuffix ((l.reverse.dropWhile pyIsSpace).reverse.dropWhile pyIsSpace)
      ((l.reverse.dropWhile pyIsSpace).reverse))
  cases hD : (l.reverse.dropWhile pyIsSpace).reverse.dropWhile pyIsSpace with
  | nil => rw [hD] at hc; cases hc
  | cons e es =>
    have hne : (l.reverse.dropWhile pyIsSpace).reverse.dropWhile pyIsSpace ≠ [] := by
      rw [hD]; exact List.cons_ne_nil _ _
    have hlast : ((l.reverse.dropWhile pyIsSpace).reverse.dropWhile pyIsSpace).getLast? =
        (l.reverse.dropWhile pyIsSpace).reverse.getLast? := by
      conv_rhs => rw [← hu]
      rw [List.getLast?_append_of_ne_nil _ hne]
    rw [hlast, List.getLast?_reverse] at hc
    have := List.head?_dropWhile_not pyIsSpace l.reverse
    cases hh : (l.reverse.dropWhile pyIsSpace).head? with
    | none => rw [hh] at hc; cases hc
    | some f =>
      rw [hh] at this hc
      cases hc
      exact this

/-- The clean_affiliations pipeline is idempotent. -/
theorem cleanAffText_idem (s : List Char) : cleanAffText (cleanAffText s) = cleanAffText s := by
  have hws : ∀ c ∈ cleanAffText s, pyIsSpace c = true → c = ' ' := by
    intro c hc
    exact collapseWs_ws_eq_space _ c (mem_stripList hc)
  have hchain2 : List.Chain' (fun a b => ¬(pyIsSpace a = true ∧ b = ','))
      (cleanAffText s) :=
    chain'_stripList (collapseWs_chain_target ',' (by decide) _ (stripWsBefore_chain ',' _))
  have hadj : List.Chain' (fun a b => ¬(pyIsSpace a = true ∧ pyIsSpace b = true))
      (cleanAffText s) :=
    chain'_stripList (collapseWs_chain_adj _)
  have hh : ∀ c ∈ (cleanAffText s).head?, pyIsSpace c = false := stripList_head _
  have hl : ∀ c ∈ (cleanAffText s).getLast?, pyIsSpace c = false := stripList_getLast _
  have h1 : replaceNewlines (cleanAffText s) = cleanAffText s := by
    apply replaceNewlines_id
    intro hmem
    have := hws '\n' hmem (by decide)
    simp at this
  have h2 : stripWsBefore ',' (cleanAffText s) = cleanAffText s :=
    stripWsBefore_id ',' _ hchain2
  have h3 : collapseWs (cleanAffText s) = cleanAffText s := collapseWs_id _ hws hadj
  have h4 : stripList (cleanAffText s) = cleanAffText s := stripList_id _ hh hl
  show stripList (collapseWs (stripWsBefore ','
    (replaceNewlines (cleanAffText s)))) = cleanAffText s
  rw [h1, h2, h3, h4]


/-! ### Idempotence of the deduplicator -/

theorem filterMap_pick_sublist (skip : Bool) : ∀ runs : List (List Author),
    List.Sublist (runs.filterMap (pickFromGroup skip)) runs.flatten := by
  intro runs
  induction runs with
  | nil => exact List.Sublist.refl _
  | cons g rs ih =>
    rw [List.filterMap_cons, List.flatten_cons]
    cases hp : pickFromGroup skip g with
    | none => exact ih.trans (List.sublist_append_right g _)
    | some x =>
      have h1 : List.Sublist [x] g := List.singleton_sublist.mpr (pickFromGroup_mem hp)
      have := List.Sublist.append h1 ih
      simpa using this

theorem gla_pairwise (authors : List Author) (skip : Bool) :
    (get_latest_affiliations authors skip).Pairwise sortRel := by
  have hs : List.Sublist (get_latest_affiliations authors skip)
      (List.insertionSort sortRel authors) := by
    unfold get_latest_affiliations
    have := filterMap_pick_sublist skip (groupRuns (List.insertionSort sortRel authors))
    rwa [groupRuns_flatten] at this
  exact (List.sorted_insertionSort sortRel authors).sublist hs

theorem gla_names_nodup (authors : List Author) (skip : Bool) :
    ((get_latest_affiliations authors skip).map Author.name).Nodup := by
  have hsorted : (List.insertionSort sortRel authors).Pairwise sortRel :=
    List.sorted_insertionSort sortRel authors
  unfold get_latest_affiliations
  rw [filterMap_pick_map_name skip _ (groupRuns_shape (List.insertionSort sortRel authors))]
  exact groupRuns_names_nodup _ hsorted

theorem groupRuns_of_nodup_names : ∀ l : List Author, ((l.map Author.name).Nodup) →
    groupRuns l = l.map (fun x => [x]) := by
  intro l
  induction l with
  | nil => intro _; rfl
  | cons a rest ih =>
    intro h
    rw [List.map_cons, List.nodup_cons] at h
    obtain ⟨hna, hrest⟩ := h
    rw [groupRuns_cons]
    have hne : ∀ b ∈ rest, ¬ (b.name = a.name) := by
      intro b hb he
      exact hna (he ▸ List.mem_map_of_mem Author.name hb)
    have htake : rest.takeWhile (fun b => decide (b.name = a.name)) = [] := by
      cases rest with
      | nil => rfl
      | cons b bs =>
        rw [List.takeWhile_cons_of_neg]
        simp [hne b (List.mem_cons_self _ _)]
    have hdrop : rest.dropWhile (fun b => decide (b.name = a.name)) = rest := by
      cases rest with
      | nil => rfl
      | cons b bs =>
        rw [List.dropWhile_cons_of_neg]
        simp [hne b (List.mem_cons_self _ _)]
    rw [htake, hdrop, ih hrest, List.map_cons]

theorem pickFromGroup_singleton (skip : Bool) (x : Author) :
    pickFromGroup skip [x] = some x := by
  cases skip with
  | false => rfl
  | true =>
    show (if [x].all (fun z => z.affiliation.isNone) = true
      then some x else [x].find? (fun z => z.affiliation.isSome)) = some x
    by_cases hx : x.affiliation.isNone = true
    · rw [if_pos (by simp [hx])]
    · rw [if_neg (by simp [hx])]
      have hxs : x.affiliation.isSome = true := by
        rw [Option.isSome_iff_ne_none]
        intro hnone
        exact hx (by simp [hnone])
      exact List.find?_cons_of_pos _ hxs

/-- A sorted list with pairwise-distinct names is a fixed point of the
deduplicator. -/
theorem gla_fixed (l : List Author) (hs : l.Pairwise sortRel)
    (hn : (l.map Author.name).Nodup) (skip : Bool) :
    get_latest_affiliations l skip = l := by
  unfold get_latest_affiliations
  rw [List.Sorted.insertionSort_eq hs, groupRuns_of_nodup_names l hn]
  induction l with
  | nil => rfl
  | cons x xs ih =>
    rw [List.map_cons, List.filterMap_cons, pickFromGroup_singleton]
    rw [ih (hs.sublist (List.sublist_cons_self _ _)) ((List.nodup_cons.mp hn).2)]


/-! ### Concrete claims about the normalizers -/

/-- C5: `clean_affiliations` raises a type error if and only if its input is
non-null and not a string; on null it returns null without raising, and on
any string it returns normally (no other failure mode). -/
theorem claim_C5 :
    (∀ s, clean_affiliations (PyVal.str s) = .ok (some (cleanAffText s))) ∧
    clean_affiliations PyVal.none = .ok Option.none ∧
    (∀ v, (∃ e, clean_affiliations v = .error e) ↔ v = PyVal.nonStr) := by
  refine ⟨fun s => rfl, rfl, fun v => ?_⟩
  cases v <;> simp [clean_affiliations]

/-- C6: `clean_affiliations` maps null to null, and maps the string
`"a  ,  b\nc"` to `"a, b; c"` (newline to `"; "`, whitespace before a comma
removed, whitespace runs collapsed, result trimmed). -/
theorem claim_C6 :
    clean_affiliations PyVal.none = .ok Option.none ∧
    clean_affiliations (PyVal.str "a  ,  b\nc".toList) = .ok (some "a, b; c".toList) := by
  exact ⟨rfl, rfl⟩

/-- C7: `extract_emails` maps `"Dept. Electronic address: a@b.com."` to the
pair `("Dept.", "a@b.com")`; in general the second component is the matched
email addresses joined with `";"`, or null when no email is found; on null
input it returns `(null, null)`. -/
theorem claim_C7 :
    extract_emails (some "Dept. Electronic address: a@b.com.".toList) =
      (some "Dept.".toList, some "a@b.com".toList) ∧
    extract_emails Option.none = (Option.none, Option.none) ∧
    (∀ t, (extract_emails (some t)).2 =
      match (scanEmails t).2 with
      | [] => Option.none
      | e :: es => some (joinSemis (e :: es))) := by
  refine ⟨by decide, rfl, fun t => rfl⟩

/-- C8: `split_camel_case` maps `"CA92037"` to `"CA 92037"`, `"SanDiego"` to
`"San Diego"`, `"SacramentoSD"` to `"Sacramento SD"`, and null to null. -/
theorem claim_C8 :
    split_camel_case (some "CA92037".toList) = some "CA 92037".toList ∧
    split_camel_case (some "SanDiego".toList) = some "San Diego".toList ∧
    split_camel_case (some "SacramentoSD".toList) = some "Sacramento SD".toList ∧
    split_camel_case Option.none = Option.none := by
  exact ⟨by decide, by decide, by decide, rfl⟩

/-- C9: `remove_parentheses_with_initials` maps `"TSRI. (S.T., R.L.)."` to
`"TSRI."` (the initials parenthetical is removed and the leftover `". ."`
and whitespace are cleaned up), leaves `"TSRI. (TSRI)"` unchanged (the
parenthetical is not a sequence of single-letter initials), and maps null
to null. -/
theorem claim_C9 :
    remove_parentheses_with_initials (some "TSRI. (S.T., R.L.).".toList) =
      some "TSRI.".toList ∧
    remove_parentheses_with_initials (some "TSRI. (TSRI)".toList) =
      some "TSRI. (TSRI)".toList ∧
    remove_parentheses_with_initials Option.none = Option.none := by
  exact ⟨by decide, by decide, rfl⟩

/-- C4 counterexample: three of the four normalizer transforms are not
idempotent.  `split_camel_case` applied twice to `"abcAdeFgh"` inserts a
second space (the first pass consumes the four-character window `bcAd`
without rescanning it, the second pass then matches `deFg`);
`remove_parentheses_with_initials` applied twice to `"(A.(B.)C.)"` deletes
the rest (removing `(B.)` creates the fresh initials group `(A.C.)`); and
re-running `extract_emails` on its own cleaned text for
`"a@bElectronic address:.com"` finds an email the first run missed (removing
the literal creates `"a@b.com"`). -/
theorem claim_C4_counterexample :
    split_camel_case (split_camel_case (some "abcAdeFgh".toList)) ≠
      split_camel_case (some "abcAdeFgh".toList) ∧
    remove_parentheses_with_initials
        (remove_parentheses_with_initials (some "(A.(B.)C.)".toList)) ≠
      remove_parentheses_with_initials (some "(A.(B.)C.)".toList) ∧
    extract_emails (extract_emails (some "a@bElectronic address:.com".toList)).1 ≠
      extract_emails (some "a@bElectronic address:.com".toList) := by
  exact ⟨by decide, by decide, by decide⟩

/-- C4 (amended): `clean_affiliations` is idempotent — applying it to its own
output returns that output unchanged — and `get_latest_affiliations` applied
to its own output (with non-null identities, as the source requires for
sorting) returns that output unchanged.  The other three normalizer
transforms are not idempotent (see the counterexample). -/
theorem claim_C4 :
    (∀ s t, clean_affiliations (PyVal.str s) = .ok (some t) →
      clean_affiliations (PyVal.str t) = .ok (some t)) ∧
    (∀ (authors : List Author) (skip : Bool),
      (∀ a ∈ authors, (Author.name a).isSome) →
      get_latest_affiliations (get_latest_affiliations authors skip) skip =
        get_latest_affiliations authors skip) := by
  constructor
  · intro s t h
    have h2 : some (cleanAffText s) = some t := by
      injection h
    injection h2 with h3
    subst h3
    show Except.ok (some (cleanAffText (cleanAffText s))) =
      Except.ok (some (cleanAffText s))
    rw [cleanAffText_idem]
  · intro authors skip h
    exact gla_fixed _ (gla_pairwise authors skip) (gla_names_nodup authors skip) skip

/-- Witness for C4 at the concrete examples. -/
theorem claim_C4_witness :
    clean_affiliations (PyVal.str "a, b; c".toList) = .ok (some "a, b; c".toList) ∧
    get_latest_affiliations
        (get_latest_affiliations [yatesA1, yatesA2, yatesA3, yatesA4] true) true =
      get_latest_affiliations [yatesA1, yatesA2, yatesA3, yatesA4] true :=
  ⟨claim_C4.1 "a  ,  b\nc".toList "a, b; c".toList rfl,
   claim_C4.2 [yatesA1, yatesA2, yatesA3, yatesA4] true (by decide)⟩

end Pubmed
